import Mathlib

/-!
Verification of the s-expression core of the kiutils repository
(`src/kiutils/utils/sexpr.py`): the regex-driven tokenizer/parser
`parse_sexp` and the canonical formatter `sexp_prettify`.

The Python code is shallowly embedded over `List Char` / `String`:

* The regex `term_regex` is embedded as a deterministic tokenizer that
  reproduces the behaviour of `re.finditer` with this pattern, alternative
  by alternative, including backtracking in the quoted-string alternative
  and the silent skip that `finditer` performs on a position where no
  alternative matches (only the character `^` triggers it, because the
  symbol class `[^(^)\s]` excludes `^`).
* Python exceptions (the `assert` in `parse_sexp` and the `out[0]`
  indexing) are modelled by `Option`.
* Python floats are modelled by exact rationals: `float(tok)` followed by
  `is_integer()` is modelled by the exact decimal value of the token.
  The two agree on every token whose decimal value is exactly
  representable at double precision (all tokens in this development);
  they can differ only on tokens of more than ~17 significant digits.
* Python's Unicode-aware `\s` and `\d` and `str.isalpha` are modelled by
  their ASCII restrictions (`\s` as the six ASCII whitespace characters,
  `\d` as `0`-`9`, `isalpha` as `a`-`z`/`A`-`Z`); no claim exercises
  non-ASCII input.
-/

namespace Kiutils

/-- A parsed s-expression node: `parse_sexp` produces Python ints, floats,
strings and symbol strings, and nested lists thereof.  Python floats are
modelled by `ℚ` (see the header note). -/
inductive SExp where
  | int (n : ℤ) : SExp
  | rat (q : ℚ) : SExp
  | str (s : String) : SExp
  | sym (s : String) : SExp
  | list (xs : List SExp) : SExp

/-- A lexical token of `term_regex`: one of the groups `brackl`, `brackr`,
or `num`/`sq`/`s` (the three atom groups, already carrying their value). -/
inductive Token where
  | lpar : Token
  | rpar : Token
  | atom (a : SExp) : Token

/-- The regex `\s` class, restricted to ASCII: space, tab, newline,
carriage return, vertical tab, form feed. -/
def lexIsWs (c : Char) : Bool :=
  c == ' ' || c == '\t' || c == '\n' || c == '\r' || c == '\x0b' || c == '\x0c'

/-- The lookahead `(?=[\ \)])` of both numeric alternatives: the next
character must be a space or a close paren (the verbose-mode character
class holds exactly an escaped space and an escaped paren). -/
def numLookaheadOk : List Char → Bool
  | [] => false
  | c :: _ => c == ' ' || c == ')'

/-- The lookahead `(?:(?=\))|(?=\s))` after the closing quote of the `sq`
alternative: a close paren or a whitespace character must follow. -/
def sqLookaheadOk : List Char → Bool
  | [] => false
  | c :: _ => c == ')' || lexIsWs c

/-- Decimal value of a digit run (most significant first). -/
def digitsToNat (ds : List Char) : ℕ :=
  ds.foldl (fun a c => a * 10 + (c.toNat - 48)) 0

/-- `float(value)` followed by `if v.is_integer(): v = int(v)` in
`parse_sexp` (lines 32-35), with the float modelled exactly: an integral
value becomes a Python int, any other value stays a float. -/
def pyNum (q : ℚ) : SExp :=
  if q.den = 1 then .int q.num else .rat q

/-- The optional `[+-]?` sign of the fractional numeric alternative. -/
def splitSignPM (l : List Char) : Bool × List Char :=
  match l with
  | [] => (false, [])
  | c :: t => if c = '+' then (false, t) else if c = '-' then (true, t) else (false, c :: t)

/-- The optional `\-?` sign of the bare-integer alternative (no `+`). -/
def splitSignM (l : List Char) : Bool × List Char :=
  match l with
  | [] => (false, [])
  | c :: t => if c = '-' then (true, t) else (false, c :: t)

/-- After sign, integer digits and the dot: match the fractional `\d+` and
the lookahead.  Both digit runs are maximal: a shorter run would put a
digit under the lookahead, which the class `[\ \)]` rejects, so regex
backtracking never helps. -/
def matchNumFracTail (neg : Bool) (ds1 l2 : List Char) :
    Option (Bool × List Char × List Char × List Char) :=
  if ds1.isEmpty then none
  else if (l2.takeWhile Char.isDigit).isEmpty then none
  else if numLookaheadOk (l2.dropWhile Char.isDigit) then
    some (neg, ds1, l2.takeWhile Char.isDigit, l2.dropWhile Char.isDigit)
  else none

/-- The first numeric alternative `[+-]?\d+\.\d+(?=[\ \)])`.  Returns the
sign, the two digit runs and the rest of the input (starting at the
lookahead character). -/
def matchNumFrac (l : List Char) : Option (Bool × List Char × List Char × List Char) :=
  match ((splitSignPM l).2.dropWhile Char.isDigit) with
  | '.' :: l2 => matchNumFracTail (splitSignPM l).1 ((splitSignPM l).2.takeWhile Char.isDigit) l2
  | _ => none

/-- The second numeric alternative `\-?\d+(?=[\ \)])`: an optional minus,
a maximal digit run, and the lookahead. -/
def matchNumInt (l : List Char) : Option (Bool × List Char × List Char) :=
  if ((splitSignM l).2.takeWhile Char.isDigit).isEmpty then none
  else if numLookaheadOk ((splitSignM l).2.dropWhile Char.isDigit) then
    some ((splitSignM l).1, (splitSignM l).2.takeWhile Char.isDigit,
      (splitSignM l).2.dropWhile Char.isDigit)
  else none

/-- Exact decimal value of a sign/integer-digits/fraction-digits token:
`±(ds1 + ds2 / 10^|ds2|)` as a reduced rational. -/
def fracTokenVal (neg : Bool) (ds1 ds2 : List Char) : ℚ :=
  if neg then -(mkRat (digitsToNat ds1 * 10 ^ ds2.length + digitsToNat ds2 : ℤ) (10 ^ ds2.length))
  else mkRat (digitsToNat ds1 * 10 ^ ds2.length + digitsToNat ds2 : ℤ) (10 ^ ds2.length)

/-- The `num` group of `term_regex`: the fractional alternative first,
then the bare-integer alternative, each with its lookahead; the matched
token is converted by `pyNum`. -/
def lexNum (l : List Char) : Option (SExp × List Char) :=
  match matchNumFrac l with
  | some (neg, ds1, ds2, r) => some (pyNum (fracTokenVal neg ds1 ds2), r)
  | none =>
    match matchNumInt l with
    | some (neg, ds, r) =>
      some (pyNum (if neg then -(digitsToNat ds : ℤ) else (digitsToNat ds : ℤ)), r)
    | none => none

/-- All ways the star of `"(?:[^"]|(?<=\\)")*"` can end in a closing quote,
listed by increasing interior length: scanning after the opening quote, any
non-quote character extends the interior; a quote whose immediately
preceding character is a backslash may either close the string or extend
the interior (the single-character lookbehind `(?<=\\)`); a quote not
preceded by a backslash can only close it.  Each candidate is
(interior, rest-after-closing-quote). -/
def sqCandidates (prev : Char) : List Char → List (List Char × List Char)
  | [] => []
  | c :: cs =>
    if c = '"' then
      ([], cs) ::
        (if prev = '\\' then (sqCandidates c cs).map (fun p => (c :: p.1, p.2)) else [])
    else
      (sqCandidates c cs).map (fun p => (c :: p.1, p.2))

/-- `value[1:-1].replace(r'\"', '"')` (line 37): each backslash-quote pair
is rewritten to a bare quote, scanning left to right, non-overlapping. -/
def pyReplace : List Char → List Char
  | '\\' :: '"' :: t => '"' :: pyReplace t
  | c :: t => c :: pyReplace t
  | [] => []

/-- The `sq` group: `afterQuote` is the input just after the opening quote.
The regex engine tries the longest interior first, so the match closes at
the last candidate whose closing quote passes the lookahead. -/
def matchSq (afterQuote : List Char) : Option (List Char × List Char) :=
  ((sqCandidates '"' afterQuote).filter (fun p => sqLookaheadOk p.2)).getLast?

/-- A character the symbol class `[^(^)\s]` accepts: anything but parens,
the (accidentally excluded) caret, and whitespace. -/
def symChar (c : Char) : Bool :=
  !(c == '(' || c == ')' || c == '^' || lexIsWs c)

/-- The `s` group `[^(^)\s]+`: a maximal nonempty run of symbol characters. -/
def matchSym (l : List Char) : Option (List Char × List Char) :=
  if (l.takeWhile symChar).isEmpty then none
  else some (l.takeWhile symChar, l.dropWhile symChar)

/-- One atom-token attempt at a non-paren character `c` (with `t` the
rest): the `num` group first, then `sq` (which can only fire on a double
quote), then `s`. -/
def lexAtomTok (c : Char) (t : List Char) : Option (SExp × List Char) :=
  match lexNum (c :: t) with
  | some (a, r) => some (a, r)
  | none =>
    match (if c = '"' then matchSq t else none) with
    | some (v, r) => some (.str (String.mk (pyReplace v)), r)
    | none =>
      match matchSym (c :: t) with
      | some (tok, r) => some (.sym (String.mk tok), r)
      | none => none

/-- The `re.finditer(term_regex, sexp)` scan (line 22) as a token list,
written with explicit fuel so that it reduces inside the kernel; every
step consumes at least one character, so `l.length` fuel always suffices
(`lexFuel_ge`).  Skip whitespace, then try the alternatives in the regex's
order; a position where every alternative fails (only `^`, see the header)
is skipped silently, exactly as `finditer` slides past a position with no
match. -/
def lexFuel : ℕ → List Char → List Token
  | 0, _ => []
  | fuel + 1, l =>
    match l.dropWhile lexIsWs with
    | [] => []
    | c :: t =>
      if c = '(' then .lpar :: lexFuel fuel t
      else if c = ')' then .rpar :: lexFuel fuel t
      else
        match lexAtomTok c t with
        | some (a, r) => .atom a :: lexFuel fuel r
        | none => lexFuel fuel t

/-- The token stream of an input: `lexFuel` with enough fuel. -/
def lexLoop (l : List Char) : List Token :=
  lexFuel l.length l

/-- The accumulator loop of `parse_sexp` (lines 19-42): an explicit stack
of in-progress lists and a current accumulator.  `none` models the
`AssertionError` raised on a close paren with an empty stack and at end of
input with a nonempty stack. -/
def runParse : List Token → List (List SExp) → List SExp → Option (List SExp)
  | [], [], out => some out
  | [], _ :: _, _ => none
  | .lpar :: ts, stack, out => runParse ts (out :: stack) []
  | .rpar :: ts, stack, out =>
    match stack with
    | [] => none
    | prev :: rest => runParse ts rest (prev ++ [.list out])
  | .atom a :: ts, stack, out => runParse ts stack (out ++ [a])

/-- `parse_sexp` (lines 18-43).  `none` models any uncaught exception: the
nesting asserts and the final `out[0]` (an `IndexError` when no top-level
expression was parsed). -/
def parse_sexp (sexp : String) : Option SExp :=
  match runParse (lexLoop sexp.toList) [] [] with
  | none => none
  | some out => out.head?

/-! ## The canonical formatter `sexp_prettify` (lines 50-215) -/

/-- `is_whitespace` of the formatter (lines 86-87): exactly space, tab,
newline, carriage return. -/
def fmtIsWs (c : Char) : Bool :=
  c == ' ' || c == '\t' || c == '\n' || c == '\r'

/-- `next_non_whitespace(cursor)` (lines 89-93): the first character at or
after the cursor that is not formatter-whitespace, `'\0'` at end of
input.  Here `l` is the input suffix starting at the cursor. -/
def nextNonWs (l : List Char) : Char :=
  match l.dropWhile fmtIsWs with
  | [] => '\x00'
  | c :: _ => c

/-- `detect_xy(cursor)` (lines 95-99): the three characters after the
open paren must be `x`, `y`, space, and the guard `idx + 3 >= length`
requires them to exist.  Here `rest` is the input suffix just after the
`(` at the cursor. -/
def detectXy (rest : List Char) : Bool :=
  match rest with
  | x :: y :: s :: _ => x == 'x' && y == 'y' && s == ' '
  | _ => false

/-- The fixed short-form keyword set (lines 109-110). -/
def shortFormTokens : List String :=
  ["font", "stroke", "fill", "teardrop", "offset", "rotate", "scale"]

/-- `detect_short_form(cursor)` (lines 101-110): the alphabetic run after
the `(` (Python `str.isalpha`, modelled on ASCII) must be one of the
short-form keywords.  `rest` is the input suffix just after the `(`. -/
def detectShortForm (rest : List Char) : Bool :=
  shortFormTokens.contains (String.mk (rest.takeWhile Char.isAlpha))

/-- The backslash/quote bookkeeping of the formatter's "any other
character" branch (lines 196-203): a backslash bumps the run counter; an
evenly-preceded quote toggles the in-quote flag; any non-backslash resets
the counter. -/
def quoteStep (q : Bool) (bc : ℕ) (c : Char) : Bool × ℕ :=
  if c = '\\' then (q, bc + 1)
  else if c = '"' ∧ bc % 2 = 0 then (!q, 0)
  else (q, 0)

/-- The formatter state of one `sexp_prettify` pass (lines 71-84), with
the output buffer `formatted` as a character list (Python accumulates a
list of string fragments and joins at the end). -/
structure FmtSt where
  formatted : List Char
  listDepth : ℕ
  lastNonWs : Option Char
  inQuote : Bool
  hasInsertedSpace : Bool
  inMultiLineList : Bool
  inXy : Bool
  inShortForm : Bool
  shortFormDepth : ℕ
  column : ℕ
  backslashCount : ℕ

/-- The initial formatter state (lines 71-84): empty output, depth 0,
`last_non_whitespace = ''` modelled as `none`, all flags clear. -/
def fmtInit : FmtSt :=
  ⟨[], 0, none, false, false, false, false, false, 0, 0, 0⟩

/-- One iteration of the `while cursor < length` loop of `sexp_prettify`
(lines 112-211): `ch` is the character at the cursor and `rest` the
suffix after it.  A line-by-line transcription of the Python branch
structure. -/
def fmtStep (compact : Bool) (st : FmtSt) (ch : Char) (rest : List Char) : FmtSt :=
  let nxt := nextNonWs (ch :: rest)
  if fmtIsWs ch ∧ st.inQuote = false then
    -- whitespace outside a quoted string (lines 117-138)
    if st.hasInsertedSpace = false ∧ 0 < st.listDepth ∧ st.lastNonWs ≠ some '(' ∧
        nxt ≠ ')' ∧ nxt ≠ '(' then
      if st.inXy = true ∨ st.column < 72 then
        { st with formatted := st.formatted ++ [' '], column := st.column + 1,
                  hasInsertedSpace := true }
      else if st.inShortForm = true then
        { st with formatted := st.formatted ++ [' '], column := st.column + 1,
                  hasInsertedSpace := true }
      else
        { st with formatted := st.formatted ++ ('\n' :: List.replicate st.listDepth '\t'),
                  column := st.listDepth, inMultiLineList := true,
                  hasInsertedSpace := true }
    else st
  else
    -- lines 139-209; `has_inserted_space = False`, then the char cases,
    -- then the `last_non_whitespace` update
    let st0 := { st with hasInsertedSpace := false }
    let st1 :=
      if ch = '(' ∧ st0.inQuote = false then
        -- open paren (lines 143-170)
        let currentIsXy := detectXy rest
        let currentIsShort := compact && detectShortForm rest
        let stA :=
          if st0.formatted.isEmpty then
            { st0 with formatted := st0.formatted ++ ['('], column := st0.column + 1 }
          else if st0.inXy = true ∧ currentIsXy = true ∧ st0.column < 99 then
            { st0 with formatted := st0.formatted ++ [' ', '('], column := st0.column + 2 }
          else if st0.inShortForm = true then
            { st0 with formatted := st0.formatted ++ [' ', '('], column := st0.column + 2 }
          else
            { st0 with
                formatted := st0.formatted ++ ('\n' :: (List.replicate st0.listDepth '\t' ++ ['('])),
                column := st0.listDepth + 1 }
        let stB := { stA with inXy := currentIsXy }
        let stC :=
          if currentIsShort then
            { stB with inShortForm := true, shortFormDepth := st0.listDepth }
          else stB
        { stC with listDepth := st0.listDepth + 1 }
      else if ch = ')' ∧ st0.inQuote = false then
        -- close paren (lines 172-192); the depth is decremented first
        -- (guarded; Nat subtraction matches the `if list_depth > 0` guard)
        let d := st0.listDepth - 1
        let stA :=
          if st0.inShortForm = true then
            { st0 with formatted := st0.formatted ++ [')'], column := st0.column + 1 }
          else if st0.lastNonWs = some ')' ∨ st0.inMultiLineList = true then
            { st0 with formatted := st0.formatted ++ ('\n' :: (List.replicate d '\t' ++ [')'])),
                       column := d + 1, inMultiLineList := false }
          else
            { st0 with formatted := st0.formatted ++ [')'], column := st0.column + 1 }
        let stB := { stA with listDepth := d }
        if st0.shortFormDepth = d then
          { stB with inShortForm := false, shortFormDepth := 0 }
        else stB
      else
        -- any other character (lines 194-206), including whitespace
        -- inside a quoted string
        let qb := quoteStep st0.inQuote st0.backslashCount ch
        { st0 with formatted := st0.formatted ++ [ch], column := st0.column + 1,
                   inQuote := qb.1, backslashCount := qb.2 }
    if fmtIsWs ch then st1 else { st1 with lastNonWs := some ch }

/-- The full `while` loop of `sexp_prettify` over the input suffix. -/
def fmtLoop (compact : Bool) (st : FmtSt) : List Char → FmtSt
  | [] => st
  | ch :: rest => fmtLoop compact (fmtStep compact st ch rest) rest

/-- `sexp_prettify(source, compact_save)` (lines 50-215): run the scan
from the initial state and append the POSIX trailing newline. -/
def sexp_prettify (source : String) (compact_save : Bool := false) : String :=
  String.mk ((fmtLoop compact_save fmtInit source.toList).formatted ++ ['\n'])

/-! ## The trivial unparser, the outside-quotes whitespace filter, and the
specification's backslash-parity quote rule (used for comparison). -/

/-- Decimal token text of an integer atom, as Python `str(int)`. -/
def intToken (n : ℤ) : String :=
  if n < 0 then "-" ++ String.mk (Nat.toDigits 10 n.natAbs)
  else String.mk (Nat.toDigits 10 n.natAbs)

/-- Long-division digits of the proper fraction `num/den`; `den` steps of
fuel are enough for any denominator dividing a power of ten (the only
denominators a parsed float can have). -/
def ratFracDigits : ℕ → ℕ → ℕ → List Char
  | 0, _, _ => []
  | _, _, 0 => []
  | fuel + 1, num, den + 1 =>
    if num = 0 then []
    else
      Char.ofNat (48 + (num * 10) / (den + 1)) ::
        ratFracDigits fuel ((num * 10) % (den + 1)) (den + 1)

/-- Decimal token text of a float atom: sign, integer part, dot,
fraction digits (at least one, so that the token re-lexes as the
fractional numeric alternative). -/
def ratToken (q : ℚ) : String :=
  let ip := String.mk (Nat.toDigits 10 (q.num.natAbs / q.den))
  let fd := ratFracDigits q.den (q.num.natAbs % q.den) q.den
  let frac := if fd.isEmpty then ['0'] else fd
  (if q.num < 0 then "-" else "") ++ ip ++ "." ++ String.mk frac

/-- Escape a string value for re-serialization: each interior `"` becomes
`\"`, everything else is copied. -/
def escQuotes : List Char → List Char
  | [] => []
  | '"' :: t => '\\' :: '"' :: escQuotes t
  | c :: t => c :: escQuotes t

mutual
/-- The trivial unparser of claim C2: numbers and symbols as their token
text, strings re-quoted with interior quotes escaped, list children
separated by single spaces inside parentheses. -/
def unparse : SExp → String
  | .int n => intToken n
  | .rat q => ratToken q
  | .str v => "\"" ++ String.mk (escQuotes v.toList) ++ "\""
  | .sym s => s
  | .list xs => "(" ++ unparseList xs ++ ")"

def unparseList : List SExp → String
  | [] => ""
  | [x] => unparse x
  | x :: y :: xs => unparse x ++ " " ++ unparseList (y :: xs)
end

/-- The quote-scanner state: the in-quote flag and the trailing-backslash
counter, exactly the pair the formatter threads through `quoteStep`. -/
structure ScanSt where
  inQuote : Bool
  backslashCount : ℕ

/-- One character of the outside-quotes whitespace filter: drop
whitespace outside quotes, keep parens outside quotes without touching
the counters (as the formatter's paren branches do), and otherwise keep
the character under the formatter's own `quoteStep` bookkeeping. -/
def stripStep (st : ScanSt) (c : Char) : ScanSt × List Char :=
  if fmtIsWs c ∧ st.inQuote = false then (st, [])
  else if (c = '(' ∨ c = ')') ∧ st.inQuote = false then (st, [c])
  else
    ((⟨(quoteStep st.inQuote st.backslashCount c).1,
       (quoteStep st.inQuote st.backslashCount c).2⟩ : ScanSt), [c])

/-- The whitespace filter over a character list, also returning the final
scanner state. -/
def stripRun (st : ScanSt) : List Char → ScanSt × List Char
  | [] => (st, [])
  | c :: cs => ((stripRun (stripStep st c).1 cs).1,
      (stripStep st c).2 ++ (stripRun (stripStep st c).1 cs).2)

/-- Delete every whitespace character that lies outside quoted strings. -/
def stripOutside (s : String) : String :=
  String.mk (stripRun ⟨false, 0⟩ s.toList).2

/-- The interior of a quoted string according to the specification's rule
quoted in claim C8 (stated for comparison with the code): scanning after
the opening quote, the string is delimited by the first double quote
preceded by an even number of consecutive backslashes; `none` if no such
quote exists.  The parameter is the current backslash-run length. -/
def specParityInterior : ℕ → List Char → Option (List Char)
  | _, [] => none
  | bc, c :: t =>
    if c = '"' ∧ bc % 2 = 0 then some []
    else if c = '\\' then (specParityInterior (bc + 1) t).map (fun v => c :: v)
    else (specParityInterior 0 t).map (fun v => c :: v)

/-- The string value predicted by the specification's parity rule: the
parity-delimited interior with `\"` pairs unescaped. -/
def specStringValue (afterQuote : List Char) : Option (List Char) :=
  (specParityInterior 0 afterQuote).map pyReplace



/-! ## Concrete inputs used by individual claims -/

/-- A balanced input whose `xy` head is separated from its coordinates by
a tab: `detect_xy` reads the raw source, so the first formatting pass does
not see an xy list, while the second pass (whose input has the tab
collapsed to a space) does. -/
def xyTabInput : String :=
  "(xy\t" ++ String.mk (List.replicate 68 'A') ++ " b)"

/-- A representative tree with a nested list, a float, an escaped-quote
string, symbols and signed integers, as parsed from
`(a (b -1.5) "x\"y" s1 2.0 -7)`. -/
def rtTree : SExp :=
  .list [.sym "a", .list [.sym "b", .rat (mkRat (-3) 2)], .str "x\"y",
    .sym "s1", .int 2, .int (-7)]

/-! ## Depth bookkeeping over token streams (for the failure
characterization of `parse_sexp`) -/

/-- No prefix of the token stream closes more lists than it has opened
(starting from `d` already-open lists): the condition under which the
`assert stack` on a close paren never fires. -/
def minDepthOk : ℕ → List Token → Bool
  | _, [] => true
  | d, .lpar :: ts => minDepthOk (d + 1) ts
  | d, .rpar :: ts => if d = 0 then false else minDepthOk (d - 1) ts
  | d, .atom _ :: ts => minDepthOk d ts

/-- The nesting depth after the token stream, starting from `d`. -/
def depthAfter : ℕ → List Token → ℕ
  | d, [] => d
  | d, .lpar :: ts => depthAfter (d + 1) ts
  | d, .rpar :: ts => depthAfter (d - 1) ts
  | d, .atom _ :: ts => depthAfter d ts

/-- The number of top-level nodes the stream completes, starting from
depth `d`: an atom at depth 0, or a close paren returning to depth 0. -/
def topCount : ℕ → List Token → ℕ
  | _, [] => 0
  | d, .lpar :: ts => topCount (d + 1) ts
  | d, .rpar :: ts => (if d = 1 then 1 else 0) + topCount (d - 1) ts
  | d, .atom _ :: ts => (if d = 0 then 1 else 0) + topCount d ts

/-- The length of the bottom-most accumulator of the parse state: `out`
itself when no list is open, otherwise the first-pushed stack entry. -/
def bottomLen (stack : List (List SExp)) (out : List SExp) : ℕ :=
  match stack.getLast? with
  | none => out.length
  | some b => b.length

/-! ## Supporting lemmas -/

theorem lenDropWhileLe (p : Char → Bool) (l : List Char) :
    (l.dropWhile p).length ≤ l.length := by
  induction l with
  | nil => simp [List.dropWhile]
  | cons c cs ih =>
    by_cases h : p c
    · simp only [List.dropWhile, h, List.length_cons]
      omega
    · simp [List.dropWhile, h]

theorem lenDropWhileLt (p : Char → Bool) (l : List Char)
    (h : (l.takeWhile p).isEmpty = false) : (l.dropWhile p).length < l.length := by
  cases l with
  | nil => simp [List.takeWhile] at h
  | cons c cs =>
    by_cases hc : p c
    · simp only [List.dropWhile, hc, List.length_cons]
      exact Nat.lt_succ_of_le (lenDropWhileLe p cs)
    · simp [List.takeWhile, hc] at h

theorem splitSignPM_snd_le (l : List Char) : (splitSignPM l).2.length ≤ l.length := by
  cases l with
  | nil => simp [splitSignPM]
  | cons c t =>
    simp only [splitSignPM]
    split_ifs <;> simp

theorem splitSignM_snd_le (l : List Char) : (splitSignM l).2.length ≤ l.length := by
  cases l with
  | nil => simp [splitSignM]
  | cons c t =>
    simp only [splitSignM]
    split_ifs <;> simp

theorem matchNumFracTail_rest {neg : Bool} {ds1 l2 : List Char} {x}
    (h : matchNumFracTail neg ds1 l2 = some x) :
    x.2.2.2 = l2.dropWhile Char.isDigit := by
  unfold matchNumFracTail at h
  split_ifs at h
  injection h with h
  rw [← h]

theorem matchNumFrac_rest_lt {l : List Char} {x}
    (h : matchNumFrac l = some x) : x.2.2.2.length < l.length := by
  unfold matchNumFrac at h
  split at h
  · rename_i l2 heq
    have hr := matchNumFracTail_rest h
    have h1 : (l2.dropWhile Char.isDigit).length ≤ l2.length := lenDropWhileLe _ _
    have h2 : l2.length + 1 = ((splitSignPM l).2.dropWhile Char.isDigit).length := by
      rw [heq]; simp
    have h3 : ((splitSignPM l).2.dropWhile Char.isDigit).length ≤ (splitSignPM l).2.length :=
      lenDropWhileLe _ _
    have h4 := splitSignPM_snd_le l
    rw [hr]
    omega
  · exact absurd h (by simp)

theorem matchNumInt_rest_lt {l : List Char} {x}
    (h : matchNumInt l = some x) : x.2.2.length < l.length := by
  unfold matchNumInt at h
  split_ifs at h with h1 h2
  injection h with h
  have h3 : ((splitSignM l).2.takeWhile Char.isDigit).isEmpty = false := by
    simpa using h1
  have h4 := lenDropWhileLt Char.isDigit (splitSignM l).2 h3
  have h5 := splitSignM_snd_le l
  have hr : x.2.2 = (splitSignM l).2.dropWhile Char.isDigit := by rw [← h]
  rw [hr]
  omega

theorem lexNum_rest_lt {l : List Char} {a : SExp} {r : List Char}
    (h : lexNum l = some (a, r)) : r.length < l.length := by
  unfold lexNum at h
  split at h
  · rename_i neg ds1 ds2 r' heq
    injection h with h
    have hlt := matchNumFrac_rest_lt heq
    have hr : r = r' := by
      have := congrArg Prod.snd h
      simpa using this.symm
    rw [hr]
    exact hlt
  · split at h
    · rename_i heq2
      injection h with h
      have hlt := matchNumInt_rest_lt heq2
      have hr := congrArg Prod.snd h
      simp only [] at hr
      rw [← hr]
      exact hlt
    · exact absurd h (by simp)

theorem sqCandidates_rest_lt {prev : Char} {l : List Char} {v r : List Char}
    (h : (v, r) ∈ sqCandidates prev l) : r.length < l.length := by
  induction l generalizing prev v r with
  | nil => simp [sqCandidates] at h
  | cons c cs ih =>
    unfold sqCandidates at h
    by_cases hc : c = '"'
    · rw [if_pos hc] at h
      rcases List.mem_cons.mp h with heq | hmem
      · injection heq with hv hr
        rw [hr]
        simp
      · by_cases hp : prev = '\\'
        · rw [if_pos hp] at hmem
          obtain ⟨⟨p1, p2⟩, hpmem, hpeq⟩ := List.mem_map.mp hmem
          injection hpeq with hv hr
          rw [← hr]
          have := ih hpmem
          simp only [List.length_cons]
          omega
        · rw [if_neg hp] at hmem
          simp at hmem
    · rw [if_neg hc] at h
      obtain ⟨⟨p1, p2⟩, hpmem, hpeq⟩ := List.mem_map.mp h
      injection hpeq with hv hr
      rw [← hr]
      have := ih hpmem
      simp only [List.length_cons]
      omega

theorem matchSq_rest_lt {t : List Char} {v r : List Char}
    (h : matchSq t = some (v, r)) : r.length < t.length := by
  unfold matchSq at h
  obtain ⟨hne, heq⟩ := List.mem_getLast?_eq_getLast (l := (sqCandidates '"' t).filter
      (fun p => sqLookaheadOk p.2)) (x := (v, r)) h
  have hmem : (v, r) ∈ (sqCandidates '"' t).filter (fun p => sqLookaheadOk p.2) := by
    rw [heq]
    exact List.getLast_mem hne
  exact sqCandidates_rest_lt (List.mem_of_mem_filter hmem)

theorem matchSym_rest_lt {l : List Char} {v r : List Char}
    (h : matchSym l = some (v, r)) : r.length < l.length := by
  unfold matchSym at h
  split_ifs at h with h1
  injection h with h
  have h2 : (l.takeWhile symChar).isEmpty = false := by simpa using h1
  have hlt := lenDropWhileLt symChar l h2
  have hr := congrArg Prod.snd h
  simp only [] at hr
  rw [← hr]
  exact hlt

theorem lexAtomTok_rest_lt {c : Char} {t : List Char} {a : SExp} {r : List Char}
    (h : lexAtomTok c t = some (a, r)) : r.length < t.length + 1 := by
  unfold lexAtomTok at h
  split at h
  · rename_i a' r' heq
    injection h with h
    have hlt := lexNum_rest_lt heq
    have hr := congrArg Prod.snd h
    simp only [] at hr
    rw [← hr]
    simpa using hlt
  · split at h
    · rename_i v r' heq
      split_ifs at heq with hcq
      injection h with h
      have hlt := matchSq_rest_lt heq
      have hr := congrArg Prod.snd h
      simp only [] at hr
      rw [← hr]
      omega
    · split at h
      · rename_i tok r' heq
        injection h with h
        have hlt := matchSym_rest_lt heq
        have hr := congrArg Prod.snd h
        simp only [] at hr
        rw [← hr]
        simpa using hlt
      · exact absurd h (by simp)

/-- Fuel irrelevance: any fuel of at least `l.length` gives the tokens. -/
theorem lexFuel_ge : ∀ (f1 f2 : ℕ) (l : List Char), l.length ≤ f1 → l.length ≤ f2 →
    lexFuel f1 l = lexFuel f2 l := by
  intro f1
  induction f1 using Nat.strong_induction_on with
  | _ f1 ih =>
    intro f2 l h1 h2
    match f1, f2 with
    | 0, 0 => rfl
    | 0, g + 1 =>
      have : l = [] := List.length_eq_zero.mp (Nat.le_zero.mp h1)
      rw [this]
      rfl
    | g + 1, 0 =>
      have : l = [] := List.length_eq_zero.mp (Nat.le_zero.mp h2)
      rw [this]
      rfl
    | g1 + 1, g2 + 1 =>
      show lexFuel (g1 + 1) l = lexFuel (g2 + 1) l
      unfold lexFuel
      cases hd : l.dropWhile lexIsWs with
      | nil => rfl
      | cons c t =>
        have hle : (l.dropWhile lexIsWs).length ≤ l.length := lenDropWhileLe _ _
        rw [hd] at hle
        simp only [List.length_cons] at hle
        dsimp only
        by_cases hc1 : c = '('
        · subst hc1
          rw [if_pos rfl, if_pos rfl]
          rw [ih g1 (by omega) g2 t (by omega) (by omega)]
        · rw [if_neg hc1, if_neg hc1]
          by_cases hc2 : c = ')'
          · subst hc2
            rw [if_pos rfl, if_pos rfl]
            rw [ih g1 (by omega) g2 t (by omega) (by omega)]
          · rw [if_neg hc2, if_neg hc2]
            cases hat : lexAtomTok c t with
            | none =>
              simp only [hat]
              exact ih g1 (by omega) g2 t (by omega) (by omega)
            | some p =>
              obtain ⟨a, r⟩ := p
              have hlt := lexAtomTok_rest_lt hat
              simp only [hat]
              rw [ih g1 (by omega) g2 r (by omega) (by omega)]

/-! ## Claim theorems: concrete evaluations -/

/-- C4: numeric coercion.  `(a 1.0)` parses with the integer `1` as second
element, `(a 1.5)` with the float `1.5` (the rational `3/2`), `(a -3)`
with the integer `-3`; in general a numeric token whose exact value is
integral becomes an integer atom and any other becomes a float atom. -/
theorem numeric_coercion :
    parse_sexp "(a 1.0)" = some (.list [.sym "a", .int 1]) ∧
    parse_sexp "(a 1.5)" = some (.list [.sym "a", .rat (mkRat 3 2)]) ∧
    parse_sexp "(a -3)" = some (.list [.sym "a", .int (-3)]) ∧
    (∀ q : ℚ, q.den = 1 → pyNum q = .int q.num) ∧
    (∀ q : ℚ, q.den ≠ 1 → pyNum q = .rat q) := by
  refine ⟨rfl, rfl, rfl, ?_, ?_⟩ <;> intro q h <;> simp [pyNum, h]

/-- Witness for C4's general coercion clauses at `3/1` and `3/2`. -/
theorem numeric_coercion_witness :
    pyNum (mkRat 3 1) = .int 3 ∧ pyNum (mkRat 3 2) = .rat (mkRat 3 2) :=
  ⟨numeric_coercion.2.2.2.1 (mkRat 3 1) (by decide),
   numeric_coercion.2.2.2.2 (mkRat 3 2) (by decide)⟩

/-- C7 counterexample: a `+`-signed bare integer and a bare integer
followed by a tab are lexed as Symbols, not Numbers: the bare-integer
alternative accepts only `-` and its lookahead accepts only a space or a
close paren. -/
theorem plus_and_tab_integers_lex_as_symbols :
    parse_sexp "(a +3)" = some (.list [.sym "a", .sym "+3"]) ∧
    parse_sexp "(a 3\t)" = some (.list [.sym "a", .sym "3"]) :=
  ⟨rfl, rfl⟩

/-- C8 counterexample: on `(a "x\\"y")` the code treats the quote after
two backslashes as escaped (the lookbehind checks a single character, not
backslash parity) and yields `x\"y`; the specification's even-parity rule
would close the string there and yield `x\\`. -/
theorem quote_parity_counterexample :
    parse_sexp "(a \"x\\\\\"y\")" = some (.list [.sym "a", .str "x\\\"y"]) ∧
    specStringValue "x\\\\\"y\")".toList = some "x\\\\".toList ∧
    ("x\\\"y" : String) ≠ "x\\\\" :=
  ⟨rfl, rfl, by decide⟩

/-- C8 amended: a quote preceded by a backslash (parity is not examined)
continues the string, each backslash-quote pair is unescaped left to
right, and the closing quote of any `sq` match is followed by whitespace
or a close paren; the claim's own example `(a "x\"y")` yields `x"y`. -/
theorem quote_escape_amended :
    parse_sexp "(a \"x\\\"y\")" = some (.list [.sym "a", .str "x\"y"]) ∧
    parse_sexp "(a \"x\\\\\"y\")" = some (.list [.sym "a", .str "x\\\"y"]) ∧
    (∀ (t v r : List Char), matchSq t = some (v, r) → sqLookaheadOk r = true) := by
  refine ⟨rfl, rfl, ?_⟩
  intro t v r h
  unfold matchSq at h
  obtain ⟨hne, heq⟩ := List.mem_getLast?_eq_getLast (l := (sqCandidates '"' t).filter
      (fun p => sqLookaheadOk p.2)) (x := (v, r)) h
  have hmem : (v, r) ∈ (sqCandidates '"' t).filter (fun p => sqLookaheadOk p.2) := by
    rw [heq]
    exact List.getLast_mem hne
  simpa using (List.mem_filter.mp hmem).2

/-- Witness for C8's closing-quote lookahead clause at a concrete match. -/
theorem quote_escape_amended_witness :
    sqLookaheadOk [' ', 'c'] = true :=
  quote_escape_amended.2.2 "ab\" c".toList ['a', 'b'] [' ', 'c'] rfl

/-- C2 counterexample: `(a 1\t)` parses the `1` as a Symbol (the numeric
lookahead rejects a tab), the trivial unparser prints `(a 1)`, and
re-parsing turns that Symbol into the integer `1`: the re-parsed tree is
not structurally equal to the original. -/
theorem roundtrip_fails_on_numeral_symbol :
    parse_sexp "(a 1\t)" = some (.list [.sym "a", .sym "1"]) ∧
    unparse (.list [.sym "a", .sym "1"]) = "(a 1)" ∧
    parse_sexp "(a 1)" = some (.list [.sym "a", .int 1]) ∧
    SExp.list [.sym "a", .sym "1"] ≠ SExp.list [.sym "a", .int 1] := by
  refine ⟨rfl, rfl, rfl, ?_⟩
  simp

/-- C2 amended: on trees none of whose Symbol atoms re-lex as a Number or
a QuotedString, the trivial unparse/re-parse round trip is the identity;
verified on a representative tree with nesting, a float, an
escaped-quote string, symbols and signed integers. -/
theorem roundtrip_holds_on_representative :
    parse_sexp "(a (b -1.5) \"x\\\"y\" s1 2.0 -7)" = some rtTree ∧
    unparse rtTree = "(a (b -1.5) \"x\\\"y\" s1 2 -7)" ∧
    parse_sexp (unparse rtTree) = some rtTree :=
  ⟨rfl, rfl, rfl⟩

/-- C3 counterexample: with two top-level expressions `parse_sexp` does
not fail; it silently returns the first (`out[0]`). -/
theorem parse_returns_first_of_multiple_roots :
    parse_sexp "(a) (b)" = some (.list [.sym "a"]) := rfl

set_option maxRecDepth 100000 in
set_option maxHeartbeats 2000000 in
/-- C1 counterexample: formatting is not idempotent on every balanced
input.  On `(xy\tAAA…A b)` the first pass does not detect an xy list
(`detect_xy` requires a space after `xy` in the raw source) and wraps at
column 72, but its output `(xy AAA…A…` does re-lex as an xy list, so the
second pass keeps everything on one line. -/
theorem prettify_not_idempotent_on_tab_xy :
    sexp_prettify (sexp_prettify xyTabInput false) false ≠ sexp_prettify xyTabInput false := by
  decide

set_option maxRecDepth 100000 in
set_option maxHeartbeats 2000000 in
/-- C1 amended: idempotence does not hold for all balanced inputs (see
the counterexample); it does hold on canonical-style inputs, e.g. the
specification's board scenario and an xy coordinate list, in both compact
modes. -/
theorem prettify_idempotent_on_scenarios :
    sexp_prettify (sexp_prettify "(board (layer 1 F.Cu signal) (thickness 1.6))" false) false
      = sexp_prettify "(board (layer 1 F.Cu signal) (thickness 1.6))" false ∧
    sexp_prettify (sexp_prettify "(pts (xy 1 2) (xy 3 4))" false) false
      = sexp_prettify "(pts (xy 1 2) (xy 3 4))" false ∧
    sexp_prettify (sexp_prettify "(stroke (width 0.1) (type solid))" true) true
      = sexp_prettify "(stroke (width 0.1) (type solid))" true := by
  refine ⟨?_, ?_, ?_⟩ <;> decide

/-- C9: `sexp_prettify` is total and always produces output ending in the
trailing newline, including on unbalanced parens, an unterminated quote,
and stray close parens (every indexing operation in the source is
guarded, so the scan always reaches the final newline append). -/
theorem prettify_total_trailing_newline :
    (∀ (s : String) (c : Bool), (sexp_prettify s c).toList.getLast? = some '\n') ∧
    sexp_prettify "(((" false = "(\n\t(\n\t\t(\n" ∧
    sexp_prettify "\"ab" false = "\"ab\n" ∧
    sexp_prettify "(a))" false = "(a)\n)\n" := by
  refine ⟨?_, rfl, rfl, rfl⟩
  intro s c
  show ((fmtLoop c fmtInit s.toList).formatted ++ ['\n']).getLast? = some '\n'
  exact List.getLast?_concat _

/-! ## Claim theorems: formatter stepping rules -/

/-- C5: a whitespace character outside quotes at depth > 0, not in a run
that already emitted (`has_inserted_space`), not directly after `(` and
not directly before `(` or `)`, emits exactly one separator: a single
space when the xy context is active, or the column is below 72, or the
short-form context is active; otherwise a newline plus `list_depth` tabs,
which also marks the list as multi-line.  Later characters of the same
whitespace run (with `has_inserted_space` set) change nothing. -/
theorem whitespace_separator_rule (compact : Bool) (st : FmtSt) (ch : Char) (rest : List Char)
    (hws : fmtIsWs ch = true) (hq : st.inQuote = false) :
    (st.hasInsertedSpace = false → 0 < st.listDepth → st.lastNonWs ≠ some '(' →
      nextNonWs (ch :: rest) ≠ ')' → nextNonWs (ch :: rest) ≠ '(' →
      ((st.inXy = true ∨ st.column < 72 ∨ st.inShortForm = true →
          fmtStep compact st ch rest =
            { st with formatted := st.formatted ++ [' '], column := st.column + 1,
                      hasInsertedSpace := true }) ∧
       (st.inXy = false → 72 ≤ st.column → st.inShortForm = false →
          fmtStep compact st ch rest =
            { st with formatted := st.formatted ++ ('\n' :: List.replicate st.listDepth '\t'),
                      column := st.listDepth, inMultiLineList := true,
                      hasInsertedSpace := true }))) ∧
    (st.hasInsertedSpace = true → fmtStep compact st ch rest = st) := by
  constructor
  · intro h1 h2 h3 h4 h5
    constructor
    · intro h6
      unfold fmtStep
      rw [if_pos (show (fmtIsWs ch : Prop) ∧ st.inQuote = false from ⟨hws, hq⟩)]
      rw [if_pos (show st.hasInsertedSpace = false ∧ 0 < st.listDepth ∧
            st.lastNonWs ≠ some '(' ∧ nextNonWs (ch :: rest) ≠ ')' ∧
            nextNonWs (ch :: rest) ≠ '(' from ⟨h1, h2, h3, h4, h5⟩)]
      by_cases hfirst : st.inXy = true ∨ st.column < 72
      · rw [if_pos hfirst]
      · rw [if_neg hfirst]
        have hsf : st.inShortForm = true := by
          rcases h6 with h | h | h
          · exact absurd (Or.inl h) hfirst
          · exact absurd (Or.inr h) hfirst
          · exact h
        rw [if_pos hsf]
    · intro h6a h6b h6c
      unfold fmtStep
      rw [if_pos (show (fmtIsWs ch : Prop) ∧ st.inQuote = false from ⟨hws, hq⟩)]
      rw [if_pos (show st.hasInsertedSpace = false ∧ 0 < st.listDepth ∧
            st.lastNonWs ≠ some '(' ∧ nextNonWs (ch :: rest) ≠ ')' ∧
            nextNonWs (ch :: rest) ≠ '(' from ⟨h1, h2, h3, h4, h5⟩)]
      rw [if_neg (show ¬(st.inXy = true ∨ st.column < 72) by
            simp [h6a]; omega)]
      rw [if_neg (show ¬(st.inShortForm = true) by simp [h6c])]
  · intro h1
    unfold fmtStep
    rw [if_pos (show (fmtIsWs ch : Prop) ∧ st.inQuote = false from ⟨hws, hq⟩)]
    rw [if_neg (show ¬(st.hasInsertedSpace = false ∧ 0 < st.listDepth ∧
          st.lastNonWs ≠ some '(' ∧ nextNonWs (ch :: rest) ≠ ')' ∧
          nextNonWs (ch :: rest) ≠ '(') by simp [h1])]

/-- Witness for C5 at concrete states: a space separator below column 72,
a newline separator at column 80, and run suppression. -/
theorem whitespace_separator_rule_witness :
    fmtStep false ⟨['(', 'a'], 1, some 'a', false, false, false, false, false, 0, 5, 0⟩
        ' ' ['b', ')']
      = ⟨['(', 'a', ' '], 1, some 'a', false, true, false, false, false, 0, 6, 0⟩ ∧
    fmtStep false ⟨['(', 'a'], 1, some 'a', false, false, false, false, false, 0, 80, 0⟩
        ' ' ['b', ')']
      = ⟨['(', 'a', '\n', '\t'], 1, some 'a', false, true, true, false, false, 0, 1, 0⟩ ∧
    fmtStep false ⟨['(', 'a', ' '], 1, some 'a', false, true, false, false, false, 0, 6, 0⟩
        ' ' ['b', ')']
      = ⟨['(', 'a', ' '], 1, some 'a', false, true, false, false, false, 0, 6, 0⟩ := by
  refine ⟨?_, ?_, ?_⟩
  · exact ((whitespace_separator_rule false _ ' ' ['b', ')'] rfl rfl).1
      rfl (by decide) (by decide) (by decide) (by decide)).1 (Or.inr (Or.inl (by decide)))
  · exact ((whitespace_separator_rule false _ ' ' ['b', ')'] rfl rfl).1
      rfl (by decide) (by decide) (by decide) (by decide)).2 rfl (by decide) rfl
  · exact (whitespace_separator_rule false _ ' ' ['b', ')'] rfl rfl).2 rfl

/-- C6: an open paren outside quotes, with output already started, the xy
context active and the upcoming head literally `xy ` (checked by
`detect_xy` on the raw source), stays inline below column 99 (emitting
`" ("`), and wraps to a fresh indented line at column 99 or beyond (when
no short-form context is active); either way the depth increases by 1. -/
theorem xy_inline_rule (compact : Bool) (st : FmtSt) (rest : List Char)
    (hq : st.inQuote = false) (hne : st.formatted.isEmpty = false)
    (hxy : st.inXy = true) (hdet : detectXy rest = true) :
    (st.column < 99 →
      (fmtStep compact st '(' rest).formatted = st.formatted ++ [' ', '('] ∧
      (fmtStep compact st '(' rest).column = st.column + 2 ∧
      (fmtStep compact st '(' rest).listDepth = st.listDepth + 1) ∧
    (99 ≤ st.column → st.inShortForm = false →
      (fmtStep compact st '(' rest).formatted
        = st.formatted ++ ('\n' :: (List.replicate st.listDepth '\t' ++ ['('])) ∧
      (fmtStep compact st '(' rest).column = st.listDepth + 1 ∧
      (fmtStep compact st '(' rest).listDepth = st.listDepth + 1) := by
  constructor
  · intro hcol
    unfold fmtStep
    split_ifs <;>
      first
        | exact ⟨rfl, rfl, rfl⟩
        | (exact absurd (by assumption : (fmtIsWs '(' : Prop) ∧ st.inQuote = false)
             (by intro hcon; exact absurd hcon.1 (by decide)))
        | (simp_all; try (split_ifs <;> simp_all); try (all_goals omega))
  · intro hcol hsf
    unfold fmtStep
    split_ifs <;>
      first
        | exact ⟨rfl, rfl, rfl⟩
        | (exact absurd (by assumption : (fmtIsWs '(' : Prop) ∧ st.inQuote = false)
             (by intro hcon; exact absurd hcon.1 (by decide)))
        | (simp_all; try (split_ifs <;> simp_all); try (all_goals omega))

/-- Witness for C6 at concrete states: inline `" ("` at column 50, wrap
to a new indented line at column 120. -/
theorem xy_inline_rule_witness :
    (fmtStep false ⟨[')'], 1, some ')', false, false, false, true, false, 0, 50, 0⟩
        '(' "xy 1)".toList).formatted = [')', ' ', '('] ∧
    (fmtStep false ⟨[')'], 1, some ')', false, false, false, true, false, 0, 120, 0⟩
        '(' "xy 1)".toList).formatted = [')', '\n', '\t', '('] := by
  constructor
  · exact ((xy_inline_rule false
      ⟨[')'], 1, some ')', false, false, false, true, false, 0, 50, 0⟩
      "xy 1)".toList rfl rfl rfl rfl).1 (by decide)).1
  · exact (((xy_inline_rule false
      ⟨[')'], 1, some ')', false, false, false, true, false, 0, 120, 0⟩
      "xy 1)".toList rfl rfl rfl rfl).2 (by decide)) rfl).1

/-! ## Claim theorems: the bare-integer lexical rule (C7 amended) -/

theorem isDigit_not_lexWs {c : Char} (h : c.isDigit = true) : lexIsWs c = false := by
  by_contra hf
  have hws : lexIsWs c = true := by
    revert hf
    cases lexIsWs c <;> simp
  unfold lexIsWs at hws
  simp only [Bool.or_eq_true, beq_iff_eq] at hws
  rcases hws with ((((h1 | h1) | h1) | h1) | h1) | h1 <;> subst h1 <;>
    exact absurd h (by decide)

theorem takeDropWhile_digits_append (p : Char → Bool) (ds : List Char) (c : Char)
    (rest : List Char) (hds : ∀ d ∈ ds, p d = true) (hc : p c = false) :
    (ds ++ c :: rest).takeWhile p = ds ∧ (ds ++ c :: rest).dropWhile p = c :: rest := by
  induction ds with
  | nil => simp [List.takeWhile_cons, List.dropWhile_cons, hc]
  | cons d dtl ih =>
    have hd : p d = true := hds d (by simp)
    have ih2 := ih (fun x hx => hds x (by simp [hx]))
    simp [List.takeWhile_cons, List.dropWhile_cons, hd, ih2.1, ih2.2]

theorem pyNum_intCast (n : ℤ) : pyNum (n : ℚ) = .int n := by
  unfold pyNum
  rw [if_pos (Rat.den_intCast n)]
  rw [Rat.num_intCast]

theorem pyNum_natCast (n : ℕ) : pyNum (n : ℚ) = .int n := by
  have h := pyNum_intCast (n : ℤ)
  push_cast at h
  exact h

theorem pyNum_neg_natCast (n : ℕ) : pyNum (-(n : ℚ)) = .int (-(n : ℤ)) := by
  have h := pyNum_intCast (-(n : ℤ))
  push_cast at h
  exact h

/-- The `num` group on a sign-optional all-digit token followed by a space
or close paren: matches via the bare-integer alternative. -/
theorem lexNum_int_token (sgn : Bool) (d : Char) (dtl : List Char) (c : Char)
    (rest : List Char) (hds : ∀ x ∈ d :: dtl, x.isDigit = true) (hc : c = ' ' ∨ c = ')') :
    lexNum ((if sgn then '-' :: d :: dtl else d :: dtl) ++ c :: rest)
      = some (.int (if sgn then -(digitsToNat (d :: dtl) : ℤ) else (digitsToNat (d :: dtl) : ℤ)),
          c :: rest) := by
  have hd : d.isDigit = true := hds d (by simp)
  have hcd : c.isDigit = false := by rcases hc with h | h <;> subst h <;> decide
  have htd := takeDropWhile_digits_append Char.isDigit (d :: dtl) c rest hds hcd
  have hdm : d ≠ '-' := by
    intro h
    subst h
    exact absurd hd (by decide)
  have hdp : d ≠ '+' := by
    intro h
    subst h
    exact absurd hd (by decide)
  have hsM : splitSignM ((if sgn then '-' :: d :: dtl else d :: dtl) ++ c :: rest)
      = (sgn, (d :: dtl) ++ c :: rest) := by
    cases sgn with
    | false => simp [splitSignM, hdm]
    | true => simp [splitSignM]
  have hsPM : (splitSignPM ((if sgn then '-' :: d :: dtl else d :: dtl) ++ c :: rest)).2
      = (d :: dtl) ++ c :: rest := by
    cases sgn with
    | false => simp [splitSignPM, hdm, hdp]
    | true => simp [splitSignPM]
  have hfrac : matchNumFrac ((if sgn then '-' :: d :: dtl else d :: dtl) ++ c :: rest) = none := by
    unfold matchNumFrac
    rw [hsPM]
    rw [htd.2]
    rcases hc with h | h <;> subst h <;> rfl
  have hint : matchNumInt ((if sgn then '-' :: d :: dtl else d :: dtl) ++ c :: rest)
      = some (sgn, d :: dtl, c :: rest) := by
    unfold matchNumInt
    rw [hsM]
    simp only []
    rw [htd.1, htd.2]
    rw [if_neg (by simp)]
    rw [if_pos (by rcases hc with h | h <;> subst h <;> rfl)]
  unfold lexNum
  rw [hfrac]
  simp only []
  rw [hint]
  simp only []
  cases sgn <;> simp [pyNum_natCast, pyNum_neg_natCast]

/-- One-step unfolding of `lexFuel` at positive fuel. -/
theorem lexFuel_succ (m : ℕ) (l : List Char) :
    lexFuel (m + 1) l =
      match l.dropWhile lexIsWs with
      | [] => []
      | c :: t =>
        if c = '(' then .lpar :: lexFuel m t
        else if c = ')' then .rpar :: lexFuel m t
        else
          match lexAtomTok c t with
          | some (a, r) => .atom a :: lexFuel m r
          | none => lexFuel m t := rfl

/-- Unfolding one token of the scan: a non-paren head whose atom attempt
succeeds emits the atom and continues after it. -/
theorem lexLoop_cons_atom {l : List Char} {c : Char} {t : List Char} {a : SExp}
    {r : List Char} (hd : l.dropWhile lexIsWs = c :: t)
    (hc1 : c ≠ '(') (hc2 : c ≠ ')') (hat : lexAtomTok c t = some (a, r)) :
    lexLoop l = .atom a :: lexLoop r := by
  have hle : (l.dropWhile lexIsWs).length ≤ l.length := lenDropWhileLe _ _
  rw [hd] at hle
  simp only [List.length_cons] at hle
  have hr := lexAtomTok_rest_lt hat
  obtain ⟨m, hm⟩ : ∃ m, l.length = m + 1 := ⟨l.length - 1, by omega⟩
  unfold lexLoop
  rw [hm]
  rw [lexFuel_succ]
  rw [hd]
  dsimp only
  rw [if_neg hc1, if_neg hc2, hat]
  dsimp only
  congr 1
  exact lexFuel_ge m r.length r (by omega) (by omega)

/-- C7 amended: a token of an optional minus sign and one or more decimal
digits, immediately followed by a space or a close paren, is lexed as a
Number atom (an integer), never as a Symbol; the scan then continues at
the following character. -/
theorem minus_integer_token_lexes_number (sgn : Bool) (ds : List Char) (c : Char)
    (rest : List Char) (hne : ds ≠ []) (hds : ∀ x ∈ ds, x.isDigit = true)
    (hc : c = ' ' ∨ c = ')') :
    ∃ n : ℤ, lexLoop ((if sgn then '-' :: ds else ds) ++ c :: rest)
      = .atom (.int n) :: lexLoop (c :: rest) := by
  obtain ⟨d, dtl, rfl⟩ : ∃ d dtl, ds = d :: dtl := by
    cases ds with
    | nil => exact absurd rfl hne
    | cons d dtl => exact ⟨d, dtl, rfl⟩
  have hd : d.isDigit = true := hds d (by simp)
  have hnum := lexNum_int_token sgn d dtl c rest hds hc
  refine ⟨if sgn then -(digitsToNat (d :: dtl) : ℤ) else (digitsToNat (d :: dtl) : ℤ), ?_⟩
  have hdws : lexIsWs d = false := isDigit_not_lexWs hd
  obtain ⟨c0, t0, hct⟩ : ∃ c0 t0,
      (if sgn then '-' :: d :: dtl else d :: dtl) ++ c :: rest = c0 :: t0 := by
    cases sgn with
    | false => exact ⟨d, dtl ++ c :: rest, by simp⟩
    | true => exact ⟨'-', (d :: dtl) ++ c :: rest, by simp⟩
  have hc0 : c0 = '-' ∨ c0 = d := by
    cases sgn with
    | false =>
      right
      simpa using congrArg (fun l => l.headD ' ') hct.symm
    | true =>
      left
      simpa using congrArg (fun l => l.headD ' ') hct.symm
  have hc0ws : lexIsWs c0 = false := by
    rcases hc0 with h | h <;> subst h
    · rfl
    · exact hdws
  have hdrop : ((if sgn then '-' :: d :: dtl else d :: dtl) ++ c :: rest).dropWhile lexIsWs
      = c0 :: t0 := by
    rw [hct, List.dropWhile_cons, hc0ws]
    rfl
  have hc0l : c0 ≠ '(' := by
    rcases hc0 with h | h <;> subst h
    · decide
    · intro h2
      subst h2
      exact absurd hd (by decide)
  have hc0r : c0 ≠ ')' := by
    rcases hc0 with h | h <;> subst h
    · decide
    · intro h2
      subst h2
      exact absurd hd (by decide)
  have hat : lexAtomTok c0 t0 = some
      (.int (if sgn then -(digitsToNat (d :: dtl) : ℤ) else (digitsToNat (d :: dtl) : ℤ)),
       c :: rest) := by
    unfold lexAtomTok
    rw [← hct, hnum]
  exact lexLoop_cons_atom hdrop hc0l hc0r hat

/-- Witness for C7 amended: `-42` before a space lexes as the integer
`-42`. -/
theorem minus_integer_token_lexes_number_witness :
    ∃ n : ℤ, lexLoop ((if true then '-' :: ['4', '2'] else ['4', '2']) ++ ' ' :: ['x', ')'])
      = .atom (.int n) :: lexLoop (' ' :: ['x', ')']) :=
  minus_integer_token_lexes_number true ['4', '2'] ' ' ['x', ')'] (by decide)
    (by decide) (Or.inl rfl)

/-! ## Claim theorems: the failure characterization of `parse_sexp` (C3) -/

theorem bottomLen_push (out : List SExp) (stack : List (List SExp)) :
    bottomLen (out :: stack) [] = bottomLen stack out := by
  cases stack with
  | nil => rfl
  | cons s ss =>
    unfold bottomLen
    rw [List.getLast?_cons_cons]
    cases hgl : (s :: ss).getLast? with
    | none => exact absurd hgl (by simp)
    | some b => rfl

theorem bottomLen_pop (prev : List SExp) (rest : List (List SExp)) (out : List SExp)
    (x : SExp) :
    bottomLen rest (prev ++ [x])
      = bottomLen (prev :: rest) out + (if rest.length + 1 = 1 then 1 else 0) := by
  cases rest with
  | nil => simp [bottomLen]
  | cons r rs =>
    unfold bottomLen
    rw [List.getLast?_cons_cons]
    cases hgl : (r :: rs).getLast? with
    | none => exact absurd hgl (by simp)
    | some b => simp

theorem bottomLen_atom (stack : List (List SExp)) (out : List SExp) (a : SExp) :
    bottomLen stack (out ++ [a])
      = bottomLen stack out + (if stack.length = 0 then 1 else 0) := by
  cases stack with
  | nil => simp [bottomLen]
  | cons s ss =>
    unfold bottomLen
    cases hgl : (s :: ss).getLast? with
    | none => exact absurd hgl (by simp)
    | some b => simp

/-- Complete characterization of the accumulator loop: it fails exactly
when some prefix over-closes or lists remain open at the end, and on
success the result extends the bottom accumulator by the number of
top-level completions. -/
theorem runParse_spec (ts : List Token) : ∀ (stack : List (List SExp)) (out : List SExp),
    (runParse ts stack out = none ↔
      (minDepthOk stack.length ts = false ∨ depthAfter stack.length ts ≠ 0)) ∧
    (∀ res, runParse ts stack out = some res →
      res.length = bottomLen stack out + topCount stack.length ts) := by
  induction ts with
  | nil =>
    intro stack out
    cases stack with
    | nil =>
      constructor
      · simp [runParse, minDepthOk, depthAfter]
      · intro res h
        injection h with h
        rw [← h]
        simp [bottomLen, topCount]
    | cons s ss =>
      constructor
      · simp [runParse, minDepthOk, depthAfter]
      · intro res h
        exact absurd h (by simp [runParse])
  | cons t ts ih =>
    intro stack out
    cases t with
    | lpar =>
      have ih2 := ih (out :: stack) []
      constructor
      · show runParse ts (out :: stack) [] = none ↔ _
        rw [ih2.1]
        simp [minDepthOk, depthAfter]
      · intro res h
        have := ih2.2 res h
        rw [this, bottomLen_push]
        simp [topCount]
    | rpar =>
      cases stack with
      | nil =>
        constructor
        · simp [runParse, minDepthOk]
        · intro res h
          exact absurd h (by simp [runParse])
      | cons prev rest =>
        have ih2 := ih rest (prev ++ [.list out])
        constructor
        · show runParse ts rest (prev ++ [.list out]) = none ↔ _
          rw [ih2.1]
          have h1 : minDepthOk (prev :: rest).length (.rpar :: ts)
              = minDepthOk rest.length ts := by
            show (if (prev :: rest).length = 0 then false
              else minDepthOk ((prev :: rest).length - 1) ts) = _
            rw [if_neg (by simp)]
            simp
          have h2 : depthAfter (prev :: rest).length (.rpar :: ts)
              = depthAfter rest.length ts := by
            show depthAfter ((prev :: rest).length - 1) ts = _
            simp
          rw [h1, h2]
        · intro res h
          have := ih2.2 res h
          rw [this]
          have h3 : topCount (prev :: rest).length (.rpar :: ts)
              = (if rest.length + 1 = 1 then 1 else 0) + topCount rest.length ts := by
            show (if (prev :: rest).length = 1 then 1 else 0)
                + topCount ((prev :: rest).length - 1) ts = _
            simp
          rw [h3, bottomLen_pop prev rest out (.list out)]
          omega
    | atom a =>
      have ih2 := ih stack (out ++ [a])
      constructor
      · show runParse ts stack (out ++ [a]) = none ↔ _
        rw [ih2.1]
        simp [minDepthOk, depthAfter]
      · intro res h
        have := ih2.2 res h
        rw [this, bottomLen_atom]
        show _ = _ + topCount stack.length (.atom a :: ts)
        have h3 : topCount stack.length (.atom a :: ts)
            = (if stack.length = 0 then 1 else 0) + topCount stack.length ts := rfl
        rw [h3]
        omega

/-- C3 amended: `parse_sexp` fails exactly when some prefix has a close
paren with no matching open, or unclosed lists remain at end of input, or
the stream completes no top-level expression; with more than one
top-level expression it succeeds, returning the first.  Failure always
yields `none`: no partial tree. -/
theorem parse_failure_characterization (s : String) :
    parse_sexp s = none ↔
      (minDepthOk 0 (lexLoop s.toList) = false ∨
       depthAfter 0 (lexLoop s.toList) ≠ 0 ∨
       topCount 0 (lexLoop s.toList) = 0) := by
  have h := runParse_spec (lexLoop s.toList) [] []
  simp only [List.length_nil] at h
  unfold parse_sexp
  cases hr : runParse (lexLoop s.toList) [] [] with
  | none =>
    have hd := h.1.mp hr
    constructor
    · intro _
      rcases hd with h1 | h1
      · exact Or.inl h1
      · exact Or.inr (Or.inl h1)
    · intro _
      rfl
  | some res =>
    have hlen := h.2 res hr
    have hnone : ¬(minDepthOk 0 (lexLoop s.toList) = false ∨
        depthAfter 0 (lexLoop s.toList) ≠ 0) := by
      intro hcon
      have h2 := h.1.mpr hcon
      rw [hr] at h2
      exact absurd h2 (by simp)
    push_neg at hnone
    show res.head? = none ↔ _
    have hbl : bottomLen [] [] = 0 := rfl
    rw [hbl] at hlen
    constructor
    · intro hh
      have hres : res = [] := by
        cases res with
        | nil => rfl
        | cons x xs => exact absurd hh (by simp)
      subst hres
      simp only [List.length_nil] at hlen
      exact Or.inr (Or.inr (by omega))
    · intro hh
      rcases hh with h1 | h1 | h1
      · exact absurd h1 hnone.1
      · exact absurd hnone.2 h1
      · have hres : res = [] := List.length_eq_zero.mp (by omega)
        subst hres
        rfl

/-! ## Claim theorems: whitespace-outside-quotes preservation (C10) -/

theorem stripStep_ws (st : ScanSt) (c : Char) (hc : fmtIsWs c = true)
    (hq : st.inQuote = false) : stripStep st c = (st, []) := by
  unfold stripStep
  rw [if_pos (show (fmtIsWs c : Prop) ∧ st.inQuote = false from ⟨hc, hq⟩)]

theorem stripStep_paren (st : ScanSt) (c : Char) (hc : c = '(' ∨ c = ')')
    (hq : st.inQuote = false) : stripStep st c = (st, [c]) := by
  have hws : fmtIsWs c = false := by rcases hc with h | h <;> subst h <;> rfl
  unfold stripStep
  rw [if_neg (show ¬((fmtIsWs c : Prop) ∧ st.inQuote = false) by simp [hws])]
  rw [if_pos (show (c = '(' ∨ c = ')') ∧ st.inQuote = false from ⟨hc, hq⟩)]

theorem stripStep_other (st : ScanSt) (c : Char)
    (h1 : ¬((fmtIsWs c : Prop) ∧ st.inQuote = false))
    (h2 : ¬(c = '(' ∧ st.inQuote = false)) (h3 : ¬(c = ')' ∧ st.inQuote = false)) :
    stripStep st c = (⟨(quoteStep st.inQuote st.backslashCount c).1,
      (quoteStep st.inQuote st.backslashCount c).2⟩, [c]) := by
  have hnot : ¬((c = '(' ∨ c = ')') ∧ st.inQuote = false) := by
    intro hcon
    rcases hcon.1 with h | h
    · exact h2 ⟨h, hcon.2⟩
    · exact h3 ⟨h, hcon.2⟩
  unfold stripStep
  rw [if_neg h1, if_neg hnot]

theorem stripRun_singleton (st : ScanSt) (c : Char) : stripRun st [c] = stripStep st c := by
  simp [stripRun]

theorem stripRun_append (st : ScanSt) (a b : List Char) :
    stripRun st (a ++ b)
      = ((stripRun (stripRun st a).1 b).1,
         (stripRun st a).2 ++ (stripRun (stripRun st a).1 b).2) := by
  induction a generalizing st with
  | nil => simp [stripRun]
  | cons c cs ih =>
    simp only [List.cons_append, stripRun]
    simp only [List.append_eq]
    rw [ih]
    simp [List.append_assoc]

theorem stripRun_allws (st : ScanSt) (w : List Char) (hq : st.inQuote = false)
    (hw : ∀ c ∈ w, fmtIsWs c = true) : stripRun st w = (st, []) := by
  induction w with
  | nil => rfl
  | cons c cs ih =>
    have h1 : stripStep st c = (st, []) := stripStep_ws st c (hw c (by simp)) hq
    show ((stripRun (stripStep st c).1 cs).1,
      (stripStep st c).2 ++ (stripRun (stripStep st c).1 cs).2) = (st, [])
    rw [h1]
    rw [ih (fun x hx => hw x (by simp [hx]))]
    rfl

theorem stripRun_ws_then (st : ScanSt) (w : List Char) (c : Char) (hq : st.inQuote = false)
    (hw : ∀ x ∈ w, fmtIsWs x = true) (hc : c = '(' ∨ c = ')') :
    stripRun st (w ++ [c]) = (st, [c]) := by
  rw [stripRun_append, stripRun_allws st w hq hw]
  simp [stripRun_singleton, stripStep_paren st c hc hq]

theorem fmtWs_nl_tabs (n : ℕ) : ∀ c ∈ '\n' :: List.replicate n '\t', fmtIsWs c = true := by
  intro c hc
  rcases List.mem_cons.mp hc with h | h
  · subst h
    rfl
  · have := List.eq_of_mem_replicate h
    subst this
    rfl

/-- One formatter step only appends to the output, and what it appends
strips (outside-quotes whitespace removed) to exactly what the input
character strips to, with the quote scanner's state tracking the
formatter's `in_quote`/`backslash_count` pair. -/
theorem fmtStep_strip (compact : Bool) (st : FmtSt) (ch : Char) (rest : List Char) :
    ∃ e, (fmtStep compact st ch rest).formatted = st.formatted ++ e ∧
      stripRun ⟨st.inQuote, st.backslashCount⟩ e
        = stripStep ⟨st.inQuote, st.backslashCount⟩ ch ∧
      (stripStep ⟨st.inQuote, st.backslashCount⟩ ch).1
        = ⟨(fmtStep compact st ch rest).inQuote,
           (fmtStep compact st ch rest).backslashCount⟩ := by
  by_cases hws : (fmtIsWs ch : Prop) ∧ st.inQuote = false
  · have hstep : stripStep ⟨st.inQuote, st.backslashCount⟩ ch
        = (⟨st.inQuote, st.backslashCount⟩, []) := stripStep_ws _ ch hws.1 hws.2
    by_cases hguard : st.hasInsertedSpace = false ∧ 0 < st.listDepth ∧
        st.lastNonWs ≠ some '(' ∧ nextNonWs (ch :: rest) ≠ ')' ∧ nextNonWs (ch :: rest) ≠ '('
    · by_cases hxy : st.inXy = true ∨ st.column < 72
      · unfold fmtStep
        rw [if_pos hws, if_pos hguard, if_pos hxy, hstep]
        refine ⟨[' '], rfl, ?_, rfl⟩
        rw [stripRun_singleton]
        exact stripStep_ws _ ' ' rfl hws.2
      · by_cases hsf : st.inShortForm = true
        · unfold fmtStep
          rw [if_pos hws, if_pos hguard, if_neg hxy, if_pos hsf, hstep]
          refine ⟨[' '], rfl, ?_, rfl⟩
          rw [stripRun_singleton]
          exact stripStep_ws _ ' ' rfl hws.2
        · unfold fmtStep
          rw [if_pos hws, if_pos hguard, if_neg hxy, if_neg hsf, hstep]
          refine ⟨'\n' :: List.replicate st.listDepth '\t', rfl, ?_, rfl⟩
          exact stripRun_allws _ _ hws.2 (fmtWs_nl_tabs st.listDepth)
    · unfold fmtStep
      rw [if_pos hws, if_neg hguard, hstep]
      exact ⟨[], (List.append_nil _).symm, rfl, rfl⟩
  · by_cases hpar : ch = '(' ∧ st.inQuote = false
    · obtain ⟨hch, hq⟩ := hpar
      subst hch
      have hstep : stripStep ⟨st.inQuote, st.backslashCount⟩ '('
          = (⟨st.inQuote, st.backslashCount⟩, ['(']) :=
        stripStep_paren _ _ (Or.inl rfl) hq
      unfold fmtStep
      rw [if_neg hws]
      dsimp only
      rw [if_pos (show ('(' : Char) = '(' ∧ st.inQuote = false from ⟨rfl, hq⟩)]
      rw [if_neg (show ¬(fmtIsWs '(' : Prop) by decide)]
      rw [hstep]
      by_cases hemp : st.formatted.isEmpty = true
      · rw [if_pos hemp]
        by_cases hcs : (compact && detectShortForm rest) = true
        · rw [if_pos hcs]
          refine ⟨['('], rfl, ?_, rfl⟩
          show stripRun _ ([] ++ ['(']) = _
          exact stripRun_ws_then _ [] '(' hq (by intro x hx; simp at hx) (Or.inl rfl)
        · rw [if_neg hcs]
          refine ⟨['('], rfl, ?_, rfl⟩
          show stripRun _ ([] ++ ['(']) = _
          exact stripRun_ws_then _ [] '(' hq (by intro x hx; simp at hx) (Or.inl rfl)
      · rw [if_neg hemp]
        by_cases hinl : st.inXy = true ∧ detectXy rest = true ∧ st.column < 99
        · rw [if_pos hinl]
          by_cases hcs : (compact && detectShortForm rest) = true
          · rw [if_pos hcs]
            refine ⟨[' ', '('], rfl, ?_, rfl⟩
            show stripRun _ ([' '] ++ ['(']) = _
            exact stripRun_ws_then _ [' '] '(' hq
              (by intro x hx; simp at hx; rw [hx]; rfl) (Or.inl rfl)
          · rw [if_neg hcs]
            refine ⟨[' ', '('], rfl, ?_, rfl⟩
            show stripRun _ ([' '] ++ ['(']) = _
            exact stripRun_ws_then _ [' '] '(' hq
              (by intro x hx; simp at hx; rw [hx]; rfl) (Or.inl rfl)
        · rw [if_neg hinl]
          by_cases hsf : st.inShortForm = true
          · rw [if_pos hsf]
            by_cases hcs : (compact && detectShortForm rest) = true
            · rw [if_pos hcs]
              refine ⟨[' ', '('], rfl, ?_, rfl⟩
              show stripRun _ ([' '] ++ ['(']) = _
              exact stripRun_ws_then _ [' '] '(' hq
                (by intro x hx; simp at hx; rw [hx]; rfl) (Or.inl rfl)
            · rw [if_neg hcs]
              refine ⟨[' ', '('], rfl, ?_, rfl⟩
              show stripRun _ ([' '] ++ ['(']) = _
              exact stripRun_ws_then _ [' '] '(' hq
                (by intro x hx; simp at hx; rw [hx]; rfl) (Or.inl rfl)
          · rw [if_neg hsf]
            by_cases hcs : (compact && detectShortForm rest) = true
            · rw [if_pos hcs]
              refine ⟨'\n' :: (List.replicate st.listDepth '\t' ++ ['(']), rfl, ?_, rfl⟩
              show stripRun _ (('\n' :: List.replicate st.listDepth '\t') ++ ['(']) = _
              exact stripRun_ws_then _ _ '(' hq (fmtWs_nl_tabs st.listDepth) (Or.inl rfl)
            · rw [if_neg hcs]
              refine ⟨'\n' :: (List.replicate st.listDepth '\t' ++ ['(']), rfl, ?_, rfl⟩
              show stripRun _ (('\n' :: List.replicate st.listDepth '\t') ++ ['(']) = _
              exact stripRun_ws_then _ _ '(' hq (fmtWs_nl_tabs st.listDepth) (Or.inl rfl)
    · by_cases hrpar : ch = ')' ∧ st.inQuote = false
      · obtain ⟨hch, hq⟩ := hrpar
        subst hch
        have hstep : stripStep ⟨st.inQuote, st.backslashCount⟩ ')'
            = (⟨st.inQuote, st.backslashCount⟩, [')']) :=
          stripStep_paren _ _ (Or.inr rfl) hq
        unfold fmtStep
        rw [if_neg hws]
        dsimp only
        rw [if_neg (show ¬(')' = '(' ∧ st.inQuote = false) by
              intro hcon; exact absurd hcon.1 (by decide))]
        rw [if_pos (show (')' : Char) = ')' ∧ st.inQuote = false from ⟨rfl, hq⟩)]
        rw [if_neg (show ¬(fmtIsWs ')' : Prop) by decide)]
        rw [hstep]
        by_cases hsf : st.inShortForm = true
        · rw [if_pos hsf]
          by_cases hre : st.shortFormDepth = st.listDepth - 1
          · rw [if_pos hre]
            refine ⟨[')'], rfl, ?_, rfl⟩
            show stripRun _ ([] ++ [')']) = _
            exact stripRun_ws_then _ [] ')' hq (by intro x hx; simp at hx) (Or.inr rfl)
          · rw [if_neg hre]
            refine ⟨[')'], rfl, ?_, rfl⟩
            show stripRun _ ([] ++ [')']) = _
            exact stripRun_ws_then _ [] ')' hq (by intro x hx; simp at hx) (Or.inr rfl)
        · rw [if_neg hsf]
          by_cases hml : st.lastNonWs = some ')' ∨ st.inMultiLineList = true
          · rw [if_pos hml]
            by_cases hre : st.shortFormDepth = st.listDepth - 1
            · rw [if_pos hre]
              refine ⟨'\n' :: (List.replicate (st.listDepth - 1) '\t' ++ [')']), rfl, ?_, rfl⟩
              show stripRun _ (('\n' :: List.replicate (st.listDepth - 1) '\t') ++ [')']) = _
              exact stripRun_ws_then _ _ ')' hq (fmtWs_nl_tabs _) (Or.inr rfl)
            · rw [if_neg hre]
              refine ⟨'\n' :: (List.replicate (st.listDepth - 1) '\t' ++ [')']), rfl, ?_, rfl⟩
              show stripRun _ (('\n' :: List.replicate (st.listDepth - 1) '\t') ++ [')']) = _
              exact stripRun_ws_then _ _ ')' hq (fmtWs_nl_tabs _) (Or.inr rfl)
          · rw [if_neg hml]
            by_cases hre : st.shortFormDepth = st.listDepth - 1
            · rw [if_pos hre]
              refine ⟨[')'], rfl, ?_, rfl⟩
              show stripRun _ ([] ++ [')']) = _
              exact stripRun_ws_then _ [] ')' hq (by intro x hx; simp at hx) (Or.inr rfl)
            · rw [if_neg hre]
              refine ⟨[')'], rfl, ?_, rfl⟩
              show stripRun _ ([] ++ [')']) = _
              exact stripRun_ws_then _ [] ')' hq (by intro x hx; simp at hx) (Or.inr rfl)
      · have h2 : ¬(ch = '(' ∧ st.inQuote = false) := hpar
        have h3 : ¬(ch = ')' ∧ st.inQuote = false) := hrpar
        have hstep : stripStep ⟨st.inQuote, st.backslashCount⟩ ch
            = (⟨(quoteStep st.inQuote st.backslashCount ch).1,
                (quoteStep st.inQuote st.backslashCount ch).2⟩, [ch]) :=
          stripStep_other _ ch hws h2 h3
        unfold fmtStep
        rw [if_neg hws]
        dsimp only
        rw [if_neg h2, if_neg h3]
        rw [hstep]
        by_cases hfw : (fmtIsWs ch : Prop)
        · rw [if_pos hfw]
          refine ⟨[ch], rfl, ?_, rfl⟩
          rw [stripRun_singleton]
          exact stripStep_other _ ch hws h2 h3
        · rw [if_neg hfw]
          refine ⟨[ch], rfl, ?_, rfl⟩
          rw [stripRun_singleton]
          exact stripStep_other _ ch hws h2 h3

/-- The whole formatting pass only appends to the output, the appended
text strips to exactly what the input strips to, and the quote scanner's
final state matches the formatter's. -/
theorem fmtLoop_strip (compact : Bool) : ∀ (l : List Char) (st : FmtSt),
    ∃ e, (fmtLoop compact st l).formatted = st.formatted ++ e ∧
      stripRun ⟨st.inQuote, st.backslashCount⟩ e
        = stripRun ⟨st.inQuote, st.backslashCount⟩ l ∧
      (stripRun ⟨st.inQuote, st.backslashCount⟩ l).1
        = ⟨(fmtLoop compact st l).inQuote, (fmtLoop compact st l).backslashCount⟩ := by
  intro l
  induction l with
  | nil =>
    intro st
    exact ⟨[], (List.append_nil _).symm, rfl, rfl⟩
  | cons ch rest ih =>
    intro st
    obtain ⟨e1, h1, h2, h3⟩ := fmtStep_strip compact st ch rest
    obtain ⟨e2, g1, g2, g3⟩ := ih (fmtStep compact st ch rest)
    refine ⟨e1 ++ e2, ?_, ?_, ?_⟩
    · show (fmtLoop compact (fmtStep compact st ch rest) rest).formatted = _
      rw [g1, h1, List.append_assoc]
    · rw [stripRun_append]
      simp only [stripRun]
      rw [h2, h3, g2]
    · simp only [stripRun]
      rw [h3]
      exact g3

/-- C10 amended: for every input whose quote scan ends outside a quoted
string, and either compact flag, deleting the whitespace that lies
outside quotes from `sexp_prettify`'s output gives the same string as
deleting it from the input: the formatter only inserts or removes
whitespace outside quotes and copies every other character verbatim in
order.  (An unterminated quote breaks this only because the final `\n` is
then appended inside the quote; see the counterexample.) -/
theorem strip_invariance (s : String) (c : Bool)
    (h : (stripRun ⟨false, 0⟩ s.toList).1.inQuote = false) :
    stripOutside (sexp_prettify s c) = stripOutside s := by
  obtain ⟨e, h1, h2, h3⟩ := fmtLoop_strip c s.toList fmtInit
  have h1e : (fmtLoop c fmtInit s.toList).formatted = e := by
    rw [h1]
    rfl
  have h2e : stripRun ⟨false, 0⟩ e = stripRun ⟨false, 0⟩ s.toList := h2
  unfold stripOutside sexp_prettify
  congr 1
  show (stripRun ⟨false, 0⟩ ((fmtLoop c fmtInit s.toList).formatted ++ ['\n'])).2
      = (stripRun ⟨false, 0⟩ s.toList).2
  rw [h1e, stripRun_append, h2e]
  have hnl : stripRun (stripRun ⟨false, 0⟩ s.toList).1 ['\n']
      = ((stripRun ⟨false, 0⟩ s.toList).1, []) := by
    rw [stripRun_singleton]
    exact stripStep_ws _ '\n' rfl h
  rw [hnl]
  simp

/-- Witness for C10 at a concrete quote-balanced input. -/
theorem strip_invariance_witness :
    stripOutside (sexp_prettify "(a \"b  c\")" false) = stripOutside "(a \"b  c\")" :=
  strip_invariance "(a \"b  c\")" false (by decide)

/-- C10 counterexample: on the single-character input `"` the quote never
closes, so the formatter's trailing newline lands inside the quoted
string; stripping whitespace outside quotes from the output keeps that
newline while the input had none. -/
theorem strip_not_preserved_unterminated_quote :
    stripOutside (sexp_prettify "\"" false) ≠ stripOutside "\"" := by
  decide
